import Mathlib

/-!
# Verification of the PatchWise LSP context-building core

Shallow embedding of the diff parser, context assembler, symbol-tree search,
definition collector and index waiter of
`src/patchwise/patch_review/ai_review/ai_code_review.py`, together with
theorems settling the specification claims about them.

Python strings are modelled as `List Char` wherever character-level operations
(slicing, prefix tests, strip) occur; Python `int` is modelled as `ℤ`;
Python `set` as `Finset`; Python `dict` (insertion-ordered) as an association
list.  Bounded `while` loops are compiled to structurally recursive functions
with an explicit step budget that provably dominates the number of iterations.
-/

set_option autoImplicit false

namespace PatchWise

/-! ## §1 Diff parsing — `parse_diff` (ai_code_review.py lines 450-472) -/

/-- Python `line.startswith(pat)`. -/
def starts (l pat : List Char) : Bool := pat.isPrefixOf l

/-- Decimal value of a digit run, as produced by Python `int()`. -/
def natOfDigits (ds : List Char) : Nat :=
  ds.foldl (fun acc c => acc * 10 + (c.toNat - '0'.toNat)) 0

/-- Greedy `\d+`: one or more leading digits, returning value and remainder. -/
def takeDigits (l : List Char) : Option (Nat × List Char) :=
  let ds := l.takeWhile Char.isDigit
  if ds.isEmpty then none else some (natOfDigits ds, l.drop ds.length)

/-- Optional greedy `(,\d+)?`: consumed only when a comma is directly followed
by at least one digit. -/
def skipOptComma (l : List Char) : List Char :=
  match l with
  | ',' :: rest =>
    if (rest.takeWhile Char.isDigit).isEmpty then l
    else rest.drop (rest.takeWhile Char.isDigit).length
  | _ => l

/-- Expect one literal character. -/
def expectChar (c : Char) (l : List Char) : Option (List Char) :=
  match l with
  | d :: rest => if d = c then some rest else none
  | [] => none

/-- Anchored prefix match of `re.match(r'@@ -\d+(,\d+)? \+(\d+)(,\d+)? @@', line)`,
returning `int(match.group(2))` (the new-side start of a hunk header). -/
def hunk_new_start (line : List Char) : Option Nat := do
  let l ← expectChar '@' line
  let l ← expectChar '@' l
  let l ← expectChar ' ' l
  let l ← expectChar '-' l
  let (_, l) ← takeDigits l
  let l := skipOptComma l
  let l ← expectChar ' ' l
  let l ← expectChar '+' l
  let (n, l) ← takeDigits l
  let l := skipOptComma l
  let l ← expectChar ' ' l
  let l ← expectChar '@' l
  let _ ← expectChar '@' l
  pure n

/-- The whitespace characters stripped by Python `str.strip()`. -/
def pyWs (c : Char) : Bool :=
  c == ' ' || c == '\t' || c == '\n' || c == '\r' || c == Char.ofNat 11 || c == Char.ofNat 12

/-- Python `str.strip()`. -/
def chars_strip (l : List Char) : List Char :=
  ((l.dropWhile pyWs).reverse.dropWhile pyWs).reverse

/-- The mutable state of the `parse_diff` loop: the result mapping
`file_adds`, and the `current_file` / `new_line` cursors. -/
structure DiffState where
  file_adds : List (List Char × Finset ℤ)
  current_file : Option (List Char)
  new_line : Option ℤ
deriving DecidableEq

/-- Python `d[k]` / `d.get(k)` on an insertion-ordered dict modelled as an
association list: the first entry with the key. -/
def dict_get {β : Type} (l : List (List Char × β)) (k : List Char) : Option β :=
  (l.find? (fun p => p.1 == k)).map (·.2)

/-- In-place mutation of the value stored under an existing key `k`
(`d[k].add(…)`, `d[k].append(…)`). -/
def dict_update {β : Type} (l : List (List Char × β)) (k : List Char) (f : β → β) :
    List (List Char × β) :=
  l.map (fun p => if p.1 == k then (p.1, f p.2) else p)

/-- Python `d[k] = v`: overwrite in place if the key exists, otherwise append
a fresh entry. -/
def dict_set {β : Type} (l : List (List Char × β)) (k : List Char) (v : β) :
    List (List Char × β) :=
  if l.any (fun p => p.1 == k) then l.map (fun p => if p.1 == k then (p.1, v) else p)
  else l ++ [(k, v)]

/-- Lookup in the `file_adds` mapping. -/
def lookup_adds (l : List (List Char × Finset ℤ)) (k : List Char) : Option (Finset ℤ) :=
  dict_get l k

/-- Python `file_adds[k] = set()`. -/
def set_entry (l : List (List Char × Finset ℤ)) (k : List Char) (v : Finset ℤ) :
    List (List Char × Finset ℤ) :=
  dict_set l k v

/-- Python `file_adds[k].add(n)`. -/
def add_entry (l : List (List Char × Finset ℤ)) (k : List Char) (n : ℤ) :
    List (List Char × Finset ℤ) :=
  dict_update l k (insert n)

/-- One iteration of the `for line in diff_lines` body of `parse_diff`,
mirroring its `if/elif` chain (lines 456-470). -/
def parse_diff_line (s : DiffState) (line : List Char) : DiffState :=
  if starts line "+++ b/".toList then
    let f := chars_strip (line.drop 6)
    { s with current_file := some f, file_adds := set_entry s.file_adds f ∅ }
  else if starts line "@@".toList then
    match hunk_new_start line with
    | some n => { s with new_line := some ((n : ℤ) - 1) }
    | none => s
  else if starts line "+".toList && !starts line "+++".toList &&
      s.current_file.isSome && s.new_line.isSome then
    match s.current_file, s.new_line with
    | some f, some n =>
      { s with file_adds := add_entry s.file_adds f n, new_line := some (n + 1) }
    | _, _ => s
  else if !starts line "-".toList && !starts line "---".toList &&
      !starts line "+++".toList && s.new_line.isSome then
    match s.new_line with
    | some n => { s with new_line := some (n + 1) }
    | _ => s
  else s

/-- The fold `parse_diff(diff_lines)`: the loop body folded over the input lines,
starting from the empty mapping with both cursors unset. -/
def parse_diff (diff_lines : List (List Char)) : List (List Char × Finset ℤ) :=
  (diff_lines.foldl parse_diff_line ⟨[], none, none⟩).file_adds

/-! ## §2 Context assembly — `_fill_context_gaps` (lines 526-543) and
`_format_file_context` (lines 545-576) -/

/-- The class constant `self.MAX_GAP` (line 56). -/
def MAX_GAP : ℤ := 5

/-- The `for i in range(len(sorted_lines) - 1)` loop of `_fill_context_gaps`:
the union of `range(current_line + 1, next_line)` over adjacent sorted pairs
whose gap size is between 1 and `MAX_GAP`. -/
def fill_pairs : List ℤ → Finset ℤ
  | a :: b :: rest =>
    (if 0 < b - a - 1 ∧ b - a - 1 ≤ MAX_GAP then Finset.Ioo a b else ∅) ∪ fill_pairs (b :: rest)
  | _ => ∅

/-- The gap filler `_fill_context_gaps(essential_lines)`. -/
def fill_context_gaps (essential_lines : Finset ℤ) : Finset ℤ :=
  if essential_lines = ∅ then essential_lines
  else essential_lines ∪ fill_pairs (essential_lines.sort (· ≤ ·))

/-- The inner `while i < n_lines and (i in? print_lines) = b` run scanner of
`_format_file_context`, with a step budget (`fuel ≥ n - i` makes it exact). -/
def scan_run (memB : ℕ → Bool) (b : Bool) (n : ℕ) : ℕ → ℕ → ℕ
  | 0, i => i
  | fuel + 1, i => if i < n && memB i == b then scan_run memB b n fuel (i + 1) else i

/-- The outer `while i < n_lines` loop of `_format_file_context`: emit runs of
printed lines verbatim; for a run of non-printed lines longer than `MAX_GAP`
emit the single `// skipping lines <start>-<end>` marker (1-based). -/
def format_go (lines : List String) (memB : ℕ → Bool) : ℕ → ℕ → List String
  | 0, _ => []
  | fuel + 1, i =>
    if i < lines.length then
      if memB i then
        let j := scan_run memB true lines.length (lines.length - i) i
        (lines.drop i).take (j - i) ++ format_go lines memB fuel j
      else
        let j := scan_run memB false lines.length (lines.length - i) i
        (if MAX_GAP < ((j - i : ℕ) : ℤ) then
          ["// skipping lines " ++ toString (i + 1) ++ "-" ++ toString j ++ "\n"]
         else []) ++ format_go lines memB fuel j
    else []

/-- The renderer `_format_file_context(def_file, print_lines)` with the file's lines given
directly (the Python reads them from disk). -/
def format_file_context (lines : List String) (print_lines : Finset ℤ) : List String :=
  format_go lines (fun i => decide ((i : ℤ) ∈ print_lines)) (lines.length + 1) 0

/-! ## §3 Symbol tree — `_find_symbol_and_parent` (lines 483-497) -/

/-- A document-symbol node: `name`, optional `range` (start/end line), and
`children` (an absent `"children"` key is the empty list). -/
inductive SymbolNode where
  | mk (name : String) (range : Option (ℤ × ℤ)) (children : List SymbolNode)

def SymbolNode.name : SymbolNode → String
  | .mk n _ _ => n

def SymbolNode.range : SymbolNode → Option (ℤ × ℤ)
  | .mk _ r _ => r

def SymbolNode.children : SymbolNode → List SymbolNode
  | .mk _ _ c => c

/-- The match test of line 489-490: `node.get("name") == identifier and rng and
rng["start"]["line"] <= line <= rng["end"]["line"]`. -/
def node_matches (identifier : String) (line : ℤ) (n : SymbolNode) : Bool :=
  match n.range with
  | some (s, e) => n.name == identifier && decide (s ≤ line) && decide (line ≤ e)
  | none => false

/-- The recursive `helper(nodes, parent)` of `_find_symbol_and_parent`:
per node, first the match test, then the children, then the remaining
siblings. -/
def find_helper (identifier : String) (line : ℤ) :
    List SymbolNode → Option SymbolNode → Option (SymbolNode × Option SymbolNode)
  | [], _ => none
  | SymbolNode.mk nm rng ch :: rest, parent =>
    if node_matches identifier line (.mk nm rng ch) then some (.mk nm rng ch, parent)
    else
      match find_helper identifier line ch (some (.mk nm rng ch)) with
      | some found => some found
      | none => find_helper identifier line rest parent

/-- The search `_find_symbol_and_parent(symbols, identifier, line)`. -/
def find_symbol_and_parent (symbols : List SymbolNode) (identifier : String) (line : ℤ) :
    Option (SymbolNode × Option SymbolNode) :=
  find_helper identifier line symbols none

/-- Reference order for the amended C4: the pre-order (node before children
before later siblings) flattening of the forest, with each node's parent. -/
def preorder_with_parent : List SymbolNode → Option SymbolNode →
    List (SymbolNode × Option SymbolNode)
  | [], _ => []
  | SymbolNode.mk nm rng ch :: rest, parent =>
    (SymbolNode.mk nm rng ch, parent) ::
      (preorder_with_parent ch (some (.mk nm rng ch)) ++ preorder_with_parent rest parent)

/-- C4 counterexample data: a symbol named `bar` spanning lines 10-20 … -/
def innerBar : SymbolNode := .mk "bar" (some (10, 20)) []

/-- C4 counterexample data, continued: the symbol above sits nested inside
another symbol that is also named `bar` and whose range
0-100 also contains the target line. -/
def outerBar : SymbolNode := .mk "bar" (some (0, 100)) [innerBar]

/-! ## §4 Definition collection — `_collect_definition` (lines 499-509) and the
recording loop of `_process_file_identifiers` (lines 702-749) -/

/-- One LSP `Location` of a definition response: `uri` and
`range.start/end` as (line, character) pairs. -/
structure Loc where
  uri : List Char
  range_start : ℤ × ℤ
  range_end : ℤ × ℤ

/-- The outcome of the per-identifier external queries, abstracting the LSP
round-trips and filesystem reads of lines 708-723: the `textDocument/definition`
result list, `os.path.exists(def_file)`, `_read_file_safely(def_file)`, and the
start/end lines of the `_get_document_symbols` match (its `location.range`). -/
structure ResolveEnv where
  def_result : List Loc
  file_exists : Bool
  header_contents : Option (List Char)
  def_symbol : Option (ℤ × ℤ)

/-- The mutable per-pass state threaded through `_process_file_identifiers`:
`collected_defs`, `printed_defs` and `printed_locations`. -/
structure CollectState where
  collected_defs : List (List Char × List (ℤ × ℤ × String))
  printed_defs : Finset String
  printed_locations : Finset (List Char × ℤ × ℤ)

/-- Python `str.replace(pat, rep)` for a nonempty pattern, replacing every
occurrence left to right; the budget `fuel ≥ length` makes it exact. -/
def replace_go (pat rep : List Char) : ℕ → List Char → List Char
  | 0, l => l
  | _ + 1, [] => []
  | fuel + 1, c :: rest =>
    if pat.isPrefixOf (c :: rest) then rep ++ replace_go pat rep fuel ((c :: rest).drop pat.length)
    else c :: replace_go pat rep fuel rest

/-- Python `uri.replace("file://", "")`-style replacement (line 714). -/
def replace_seq (pat rep l : List Char) : List Char := replace_go pat rep l.length l

/-- Lookup in `collected_defs`. -/
def lookup_defs (l : List (List Char × List (ℤ × ℤ × String))) (k : List Char) :
    Option (List (ℤ × ℤ × String)) :=
  dict_get l k

/-- Python `collected_defs[k].append(v)`. -/
def append_def (l : List (List Char × List (ℤ × ℤ × String))) (k : List Char)
    (v : ℤ × ℤ × String) : List (List Char × List (ℤ × ℤ × String)) :=
  dict_update l k (· ++ [v])

/-- The recorder `_collect_definition(def_file, start, end, identifier,
collected_defs, parent_range)` (lines 499-509): create the file's entry if missing, then append
either the parent's range under the synthetic `parent_of_<identifier>` label or
the identifier's own range. -/
def collect_definition (def_file : List Char) (start_l end_l : ℤ) (identifier : String)
    (collected_defs : List (List Char × List (ℤ × ℤ × String)))
    (parent_range : Option (ℤ × ℤ)) : List (List Char × List (ℤ × ℤ × String)) :=
  let cd := if (lookup_defs collected_defs def_file).isSome then collected_defs
            else collected_defs ++ [(def_file, [])]
  match parent_range with
  | some (ps, pe) => append_def cd def_file (ps, pe, "parent_of_" ++ identifier)
  | none => append_def cd def_file (start_l, end_l, identifier)

/-- The recording loop body of `_process_file_identifiers` for one identifier
(lines 702-749), with the external queries abstracted into `env`; `symbols` is
the `textDocument/documentSymbol` forest obtained at lines 674-680.  (The
warm-up loop at lines 683-696 issues the same queries without touching any of
this state and is therefore not modelled.) -/
def process_identifier (symbols : List SymbolNode) (identifier : String) (env : ResolveEnv)
    (st : CollectState) : CollectState :=
  if identifier ∈ st.printed_defs then st
  else match env.def_result with
  | [] => st
  | loc :: _ =>
    let def_file := replace_seq "file://".toList [] loc.uri
    if env.file_exists = false then st
    else match env.header_contents with
    | none => st
    | some contents =>
      if contents.isEmpty then st
      else
        let se : ℤ × ℤ :=
          match env.def_symbol with
          | some (s, e) => (s, e)
          | none => (loc.range_start.1, loc.range_end.1)
        let def_loc := (def_file, se.1, se.2)
        if def_loc ∈ st.printed_locations then st
        else
          let parent_range : Option (ℤ × ℤ) :=
            if symbols.isEmpty then none
            else
              match find_symbol_and_parent symbols identifier se.1 with
              | some (_, some parent) => parent.range
              | _ => none
          { collected_defs :=
              collect_definition def_file se.1 se.2 identifier st.collected_defs parent_range,
            printed_defs := insert identifier st.printed_defs,
            printed_locations := insert def_loc st.printed_locations }

/-! ## §5 Pass-level control flow — `_collect_definitions` (lines 864-898) -/

/-- Outcome of one `_process_file_identifiers` call: normal return, or a raised
exception. -/
inductive FileOutcome where
  | ok
  | raises (e : String)
deriving DecidableEq

/-- The `for filename, lines in file_adds.items()` loop (lines 895-896): a
raised exception aborts the loop and propagates. -/
def run_files : List FileOutcome → Except String Unit
  | [] => .ok ()
  | .ok :: rest => run_files rest
  | .raises e :: _ => .error e

/-- The control flow of `_collect_definitions` after the process is started:
the loop runs, and `proc.terminate()` (line 897) executes only if the loop
returns normally — the function has no `try/finally`, so a propagating
exception skips it.  Returns (propagated outcome, whether terminate ran). -/
def collect_definitions_run (outcomes : List FileOutcome) : Except String Unit × Bool :=
  match run_files outcomes with
  | .ok () => (.ok (), true)
  | .error e => (.error e, false)

/-! ## §6 Frame decoding — the header loop of `_read_lsp_response`
(lines 268-275) -/

/-- Python `proc.stdout.read(1)` on a blocking byte stream: one byte, or the empty
chunk at end of stream (a blocking binary `read` returns `b""` at EOF; it
returns `None` only for non-blocking raw streams, which is not how the pipe is
opened, so the `if chunk is None: raise RuntimeError(...)` branch of line
273-274 can never fire). -/
def read1 : List Char → List Char × List Char
  | [] => ([], [])
  | c :: rest => ([c], rest)

/-- Python `pat in bytes`: contiguous-subsequence test. -/
def contains_seq (pat : List Char) : List Char → Bool
  | [] => pat.isEmpty
  | c :: rest => pat.isPrefixOf (c :: rest) || contains_seq pat rest

/-- The header terminator `b"\r\n\r\n"`. -/
def crlfcrlf : List Char := ['\r', '\n', '\r', '\n']

/-- Result of running the header loop for a bounded number of iterations. -/
inductive ReadOutcome where
  | ok (headers rest : List Char)
  | error (msg : String)
  | running
deriving DecidableEq

/-- The `while b"\r\n\r\n" not in headers` loop of `_read_lsp_response`
(lines 270-275), run for at most `fuel` iterations; `.running` means the loop
had not exited after `fuel` iterations.  The `.error` constructor stands for
the `raise RuntimeError` of line 274, which is unreachable (see `read1`). -/
def read_headers_loop : ℕ → List Char → List Char → ReadOutcome
  | 0, _, _ => .running
  | fuel + 1, headers, stream =>
    if contains_seq crlfcrlf headers then .ok headers stream
    else
      let (chunk, rest) := read1 stream
      read_headers_loop fuel (headers ++ chunk) rest

/-! ## §7 IndexWaiter — `wait_for_clangd_indexing` (lines 773-841) -/

/-- The keyword parameters of `wait_for_clangd_indexing` (defaults
`600, 60, 1, 10`). -/
structure WaitParams where
  max_total_wait : ℤ
  max_stale_time : ℤ
  interval : ℤ
  max_interval : ℤ

/-- One decoded frame as inspected by the waiter: its `method`, the
`params.token`, and the `params.value` object (JSON fields with numeric
values; `isinstance(value, dict)` always holds for it). -/
structure ProgressMsg where
  method : String
  token : String
  value : List (String × ℤ)
deriving DecidableEq

/-- Python `value.get("percentage")`. -/
def percentage_of (m : ProgressMsg) : Option ℤ :=
  (m.value.find? (fun p => p.1 == "percentage")).map (·.2)

/-- The waiter's mutable state: `last_percentage`, `last_value`, `waited`,
`current_interval`, and the elapsed wall clock `time.time() - start_time`
(advanced only by `time.sleep`; frame processing is instantaneous in the
model). -/
structure WaitState where
  last_percentage : Option ℤ
  last_value : Option (List (String × ℤ))
  waited : ℤ
  current_interval : ℤ
  clock : ℤ
deriving DecidableEq

/-- How a run of the waiter ended. -/
inductive WaitResult where
  | completed
  | stale_exit
  | hard_ceiling
  | script_ended (st : WaitState)
deriving DecidableEq

/-- Processing of one frame inside the inner read loop (lines 801-834):
`.error` is an early `return` from the function. -/
def process_msg (p : WaitParams) (st : WaitState) (m : ProgressMsg) :
    Except WaitResult WaitState :=
  if m.method = "$/progress" then
    if m.token = "backgroundIndexProgress" then
      match percentage_of m with
      | some pc =>
        if pc = 100 then .error .completed
        else if st.last_percentage = some pc ∧ st.last_value = some m.value then
          if p.max_stale_time ≤ st.current_interval then .error .stale_exit
          else .ok { st with waited := st.waited + st.current_interval,
                             last_percentage := some pc, last_value := some m.value }
        else .ok { st with waited := 0, current_interval := p.interval,
                           last_percentage := some pc, last_value := some m.value }
      | none => .ok st
    else .ok st
  else .ok st

/-- The inner `while True` loop (lines 790-834) over one batch of frames: the
frames `select` reports as available are read and processed in order. -/
def process_batch (p : WaitParams) : WaitState → List ProgressMsg → Except WaitResult WaitState
  | st, [] => .ok st
  | st, m :: ms =>
    match process_msg p st m with
    | .error r => .error r
    | .ok st' => process_batch p st' ms

/-- The outer `while time.time() - start_time < max_total_wait` loop
(lines 788-839).  The run is driven by a script: one batch of available frames
per outer iteration (an empty batch is an empty `select` poll, answered by
`time.sleep(current_interval)` followed by the exponential-backoff update
`current_interval = min(current_interval * 2, max_interval)` and
`waited += current_interval`).  `.script_ended` reports the state when the
script is exhausted with the loop still running. -/
def wait_loop (p : WaitParams) : WaitState → List (List ProgressMsg) → WaitResult
  | st, [] => .script_ended st
  | st, batch :: rest =>
    if p.max_total_wait ≤ st.clock then .hard_ceiling
    else
      match process_batch p st batch with
      | .error r => r
      | .ok st' =>
        if batch.isEmpty then
          let ni := min (st'.current_interval * 2) p.max_interval
          wait_loop p { st' with clock := st'.clock + st'.current_interval,
                                 current_interval := ni, waited := st'.waited + ni } rest
        else wait_loop p st' rest

/-- The default keyword arguments of `wait_for_clangd_indexing`. -/
def default_params : WaitParams := ⟨600, 60, 1, 10⟩

/-- Local-variable initialisation at lines 783-787. -/
def init_wait_state (p : WaitParams) : WaitState := ⟨none, none, 0, p.interval, 0⟩

/-- A full run of `wait_for_clangd_indexing` on a frame script. -/
def wait_for_clangd_indexing (p : WaitParams) (script : List (List ProgressMsg)) : WaitResult :=
  wait_loop p (init_wait_state p) script

/-- Bool test used to state that a run took the stale-progress exit
(the `return` at line 817). -/
def WaitResult.took_stale_exit : WaitResult → Bool
  | .stale_exit => true
  | _ => false

/-- An unchanged background-indexing progress frame at 10 percent. -/
def msg10 : ProgressMsg := ⟨"$/progress", "backgroundIndexProgress", [("percentage", 10)]⟩

/-! ## Theorems: gap filling (claims C7, C8, C9) -/

theorem mem_fill_pairs_imp {s : Finset ℤ} {x : ℤ} :
    ∀ (l : List ℤ), (∀ y ∈ l, y ∈ s) → x ∈ fill_pairs l →
      ∃ a ∈ s, ∃ b ∈ s, a < x ∧ x < b ∧ b ≤ a + 6
  | [] => by simp [fill_pairs]
  | [a] => by simp [fill_pairs]
  | a :: b :: rest => by
    intro hmem hx
    rw [fill_pairs, Finset.mem_union] at hx
    rcases hx with hx | hx
    · by_cases hc : 0 < b - a - 1 ∧ b - a - 1 ≤ MAX_GAP
      · rw [if_pos hc, Finset.mem_Ioo] at hx
        refine ⟨a, hmem a (by simp), b, hmem b (by simp), hx.1, hx.2, ?_⟩
        have := hc.2
        simp only [MAX_GAP] at this
        omega
      · rw [if_neg hc] at hx; simp at hx
    · exact mem_fill_pairs_imp (b :: rest) (fun y hy => hmem y (by simp [hy])) hx

theorem mem_fill_pairs_of_adjacent {x : ℤ} :
    ∀ (l : List ℤ), l.Sorted (· ≤ ·) → ∀ a b : ℤ, a ∈ l → b ∈ l →
      a < x → x < b → b ≤ a + 6 → (∀ c ∈ l, c ≤ a ∨ b ≤ c) →
      x ∈ fill_pairs l
  | [] => by simp
  | [y] => by
    intro _ a b ha hb hax hxb _ _
    simp at ha hb
    omega
  | y :: z :: rest => by
    intro hsort a b ha hb hax hxb hba hnomid
    have hsort' : (z :: rest).Sorted (· ≤ ·) := hsort.of_cons
    have hyz : y ≤ z := (List.sorted_cons.1 hsort).1 z (by simp)
    have hymin : ∀ c ∈ y :: z :: rest, y ≤ c := by
      intro c hc
      rw [List.mem_cons] at hc
      rcases hc with rfl | hc
      · exact le_refl c
      · exact (List.sorted_cons.1 hsort).1 c hc
    have hya : y ≤ a := hymin a ha
    rw [List.mem_cons] at ha hb
    by_cases hay : a = y
    · subst hay
      have hbz : b ∈ z :: rest := by
        rcases hb with rfl | hb
        · omega
        · exact hb
      rcases hnomid z (by simp) with hza | hbz'
      · have hza' : a = z := le_antisymm hyz hza
        rw [fill_pairs, Finset.mem_union]
        right
        refine mem_fill_pairs_of_adjacent (z :: rest) hsort' z b (by simp) hbz
          (by omega) hxb (by omega) ?_
        intro c hc
        rcases hnomid c (by simp [hc]) with h | h
        · left; omega
        · right; exact h
      · have hzb : z ≤ b := by
          rw [List.mem_cons] at hbz
          rcases hbz with rfl | hbz
          · exact le_refl b
          · exact (List.sorted_cons.1 hsort').1 b hbz
        have hzb' : z = b := le_antisymm hzb hbz'
        subst hzb'
        rw [fill_pairs, Finset.mem_union]
        left
        rw [if_pos (by refine ⟨by omega, ?_⟩; simp only [MAX_GAP]; omega)]
        exact Finset.mem_Ioo.2 ⟨hax, hxb⟩
    · have ha' : a ∈ z :: rest := by
        rcases ha with rfl | ha
        · omega
        · exact ha
      have hb' : b ∈ z :: rest := by
        rcases hb with rfl | hb
        · omega
        · exact hb
      rw [fill_pairs, Finset.mem_union]
      right
      exact mem_fill_pairs_of_adjacent (z :: rest) hsort' a b ha' hb' hax hxb hba
        (fun c hc => hnomid c (by simp [hc]))

theorem subset_fill_context_gaps (s : Finset ℤ) : s ⊆ fill_context_gaps s := by
  unfold fill_context_gaps
  split
  · exact subset_refl s
  · exact Finset.subset_union_left

theorem mem_fill_of_pair {s : Finset ℤ} :
    ∀ (d : ℕ) (a b x : ℤ), (b - a).toNat ≤ d → a ∈ s → b ∈ s →
      a < x → x < b → b ≤ a + 6 → x ∈ fill_context_gaps s := by
  intro d
  induction d with
  | zero => intro a b x hd _ _ hax hxb _; omega
  | succ d ih =>
    intro a b x hd ha hb hax hxb hba
    by_cases hmid : ∃ c ∈ s, a < c ∧ c < b
    · obtain ⟨c, hc, hac, hcb⟩ := hmid
      rcases lt_trichotomy x c with h | rfl | h
      · exact ih a c x (by omega) ha hc hax h (by omega)
      · exact subset_fill_context_gaps s hc
      · exact ih c b x (by omega) hc hb h hxb (by omega)
    · push_neg at hmid
      unfold fill_context_gaps
      rw [if_neg (Finset.ne_empty_of_mem ha)]
      rw [Finset.mem_union]
      right
      refine mem_fill_pairs_of_adjacent (s.sort (· ≤ ·)) (Finset.sort_sorted _ _)
        a b ((Finset.mem_sort _).2 ha) ((Finset.mem_sort _).2 hb) hax hxb hba ?_
      intro c hc
      have hcs : c ∈ s := (Finset.mem_sort _).1 hc
      by_cases h1 : c ≤ a
      · exact Or.inl h1
      · right
        have := hmid c hcs
        omega

/-- Membership characterisation of `_fill_context_gaps`: the output holds
exactly the input lines plus the lines strictly between two input lines at
distance at most `MAX_GAP + 1`. -/
theorem mem_fill_context_gaps_iff (s : Finset ℤ) (x : ℤ) :
    x ∈ fill_context_gaps s ↔
      x ∈ s ∨ ∃ a ∈ s, ∃ b ∈ s, a < x ∧ x < b ∧ b ≤ a + 6 := by
  constructor
  · intro hx
    unfold fill_context_gaps at hx
    split at hx
    · exact Or.inl hx
    · rw [Finset.mem_union] at hx
      rcases hx with hx | hx
      · exact Or.inl hx
      · exact Or.inr (mem_fill_pairs_imp (s.sort (· ≤ ·))
          (fun y hy => (Finset.mem_sort _).1 hy) hx)
  · intro hx
    rcases hx with hx | ⟨a, ha, b, hb, hax, hxb, hba⟩
    · exact subset_fill_context_gaps s hx
    · exact mem_fill_of_pair ((b - a).toNat) a b x (le_refl _) ha hb hax hxb hba

theorem fill_closed {s : Finset ℤ} {a b x : ℤ}
    (ha : a ∈ fill_context_gaps s) (hb : b ∈ fill_context_gaps s)
    (h1 : a < x) (h2 : x < b) (h3 : b ≤ a + 6) : x ∈ fill_context_gaps s := by
  rw [mem_fill_context_gaps_iff] at ha hb ⊢
  rcases ha with ha | ⟨a1, ha1, b1, hb1, q1, q2, q3⟩ <;>
    rcases hb with hb | ⟨a2, ha2, b2, hb2, r1, r2, r3⟩
  · exact Or.inr ⟨a, ha, b, hb, h1, h2, h3⟩
  · rcases lt_trichotomy x a2 with h | rfl | h
    · exact Or.inr ⟨a, ha, a2, ha2, h1, h, by omega⟩
    · exact Or.inl ha2
    · exact Or.inr ⟨a2, ha2, b2, hb2, h, by omega, by omega⟩
  · rcases lt_trichotomy x b1 with h | rfl | h
    · exact Or.inr ⟨a1, ha1, b1, hb1, by omega, h, by omega⟩
    · exact Or.inl hb1
    · exact Or.inr ⟨b1, hb1, b, hb, h, h2, by omega⟩
  · rcases lt_trichotomy x b1 with h | rfl | h
    · exact Or.inr ⟨a1, ha1, b1, hb1, by omega, h, by omega⟩
    · exact Or.inl hb1
    · rcases lt_trichotomy x a2 with h' | rfl | h'
      · exact Or.inr ⟨b1, hb1, a2, ha2, h, h', by omega⟩
      · exact Or.inl ha2
      · exact Or.inr ⟨a2, ha2, b2, hb2, h', by omega, by omega⟩

/-- C7: gap-filling is idempotent — for every set of essential line numbers
`s`, `_fill_context_gaps(_fill_context_gaps(s))` equals
`_fill_context_gaps(s)`. -/
theorem c7_fill_context_gaps_idempotent (s : Finset ℤ) :
    fill_context_gaps (fill_context_gaps s) = fill_context_gaps s := by
  ext x
  constructor
  · intro hx
    rw [mem_fill_context_gaps_iff] at hx
    rcases hx with hx | ⟨a, ha, b, hb, hax, hxb, hba⟩
    · exact hx
    · exact fill_closed ha hb hax hxb hba
  · intro hx
    exact subset_fill_context_gaps _ hx

/-- C8 counterexample: with essential lines `{10, 50}` the rendering of a
51-line file does NOT contain a marker reading `// skipping lines 11-49`.
The print sets are 0-based and the marker converts to 1-based display, so the
elided 0-based region 11-49 between the essential lines is announced as
`// skipping lines 12-50`. -/
theorem c8_marker_counterexample :
    "// skipping lines 11-49\n" ∉
      format_file_context (List.replicate 51 "x\n") ({10, 50} : Finset ℤ) := by
  decide

/-- C8 amended: with essential lines `{10, 50}` (0-based) and `MAX_GAP = 5`,
the 39-line gap between them is not filled, and rendering a 51-line file emits
exactly one gap marker for the elided region between the two essential lines,
reading `// skipping lines 12-50` (the 1-based display of 0-based lines
11-49). -/
theorem c8_gap_not_filled_single_marker :
    fill_context_gaps ({10, 50} : Finset ℤ) = {10, 50} ∧
    format_file_context (List.replicate 51 "x\n") ({10, 50} : Finset ℤ) =
      ["// skipping lines 1-10\n", "x\n", "// skipping lines 12-50\n", "x\n"] ∧
    (format_file_context (List.replicate 51 "x\n") ({10, 50} : Finset ℤ)).count
      "// skipping lines 12-50\n" = 1 := by
  refine ⟨?_, by decide, by decide⟩
  ext x
  rw [mem_fill_context_gaps_iff]
  constructor
  · rintro (hx | ⟨a, ha, b, hb, hax, hxb, hba⟩)
    · exact hx
    · simp only [Finset.mem_insert, Finset.mem_singleton] at ha hb
      rcases ha with rfl | rfl <;> rcases hb with rfl | rfl <;> omega
  · exact Or.inl

/-- C9: `_fill_context_gaps` returns a superset of its argument, adds only
line numbers strictly between two existing lines (hence `min` and `max` are
preserved on nonempty sets), and maps the empty set to itself.  (The Python
function also does not mutate its argument — it copies it into a fresh
`print_lines` set — which is inherent in this pure embedding.) -/
theorem c9_fill_context_gaps_bounds (s : Finset ℤ) :
    s ⊆ fill_context_gaps s ∧
    fill_context_gaps (∅ : Finset ℤ) = ∅ ∧
    (∀ x ∈ fill_context_gaps s, x ∉ s → (∃ a ∈ s, a < x) ∧ (∃ b ∈ s, x < b)) ∧
    ∀ hs : s.Nonempty,
      (fill_context_gaps s).min' (hs.mono (subset_fill_context_gaps s)) = s.min' hs ∧
      (fill_context_gaps s).max' (hs.mono (subset_fill_context_gaps s)) = s.max' hs := by
  refine ⟨subset_fill_context_gaps s, rfl, ?_, ?_⟩
  · intro x hx hxs
    rw [mem_fill_context_gaps_iff] at hx
    rcases hx with hx | ⟨a, ha, b, hb, hax, hxb, _⟩
    · exact absurd hx hxs
    · exact ⟨⟨a, ha, hax⟩, ⟨b, hb, hxb⟩⟩
  · intro hs
    constructor
    · apply le_antisymm
      · exact Finset.min'_le _ _ (subset_fill_context_gaps s (s.min'_mem hs))
      · apply Finset.le_min'
        intro y hy
        rw [mem_fill_context_gaps_iff] at hy
        rcases hy with hy | ⟨a, ha, _, _, hax, _, _⟩
        · exact Finset.min'_le _ _ hy
        · exact le_trans (Finset.min'_le _ _ ha) (by omega)
    · apply le_antisymm
      · apply Finset.max'_le
        intro y hy
        rw [mem_fill_context_gaps_iff] at hy
        rcases hy with hy | ⟨_, _, b, hb, _, hxb, _⟩
        · exact Finset.le_max' _ _ hy
        · exact le_trans (by omega) (Finset.le_max' _ _ hb)
      · exact Finset.le_max' _ _ (subset_fill_context_gaps s (s.max'_mem hs))

/-- C9 witness: the bounds theorem applied at `s = {10, 12}` and the filled
line `x = 11`. -/
theorem c9_fill_context_gaps_bounds_witness :
    ((∃ a ∈ ({10, 12} : Finset ℤ), a < 11) ∧ (∃ b ∈ ({10, 12} : Finset ℤ), 11 < b)) ∧
    (fill_context_gaps ({10, 12} : Finset ℤ)).min'
        ((Finset.insert_nonempty _ _).mono (subset_fill_context_gaps _)) =
      ({10, 12} : Finset ℤ).min' (Finset.insert_nonempty _ _) := by
  have h11 : (11 : ℤ) ∈ fill_context_gaps ({10, 12} : Finset ℤ) :=
    (mem_fill_context_gaps_iff _ _).2
      (Or.inr ⟨10, by decide, 12, by decide, by omega, by omega, by omega⟩)
  exact ⟨(c9_fill_context_gaps_bounds ({10, 12} : Finset ℤ)).2.2.1 11 h11 (by decide),
    ((c9_fill_context_gaps_bounds ({10, 12} : Finset ℤ)).2.2.2
      (Finset.insert_nonempty _ _)).1⟩



/-! ## Theorems: diff parsing (claims C6, C10) -/

theorem isPrefixOf_trans : ∀ (p q l : List Char),
    p.isPrefixOf q = true → q.isPrefixOf l = true → p.isPrefixOf l = true
  | [], _, _ => by simp [List.isPrefixOf]
  | a :: p, [], _ => by simp [List.isPrefixOf]
  | a :: p, b :: q, [] => by simp [List.isPrefixOf]
  | a :: p, b :: q, c :: l => by
    simp only [List.isPrefixOf, Bool.and_eq_true, beq_iff_eq]
    rintro ⟨rfl, h1⟩ ⟨rfl, h2⟩
    exact ⟨rfl, isPrefixOf_trans p q l h1 h2⟩

theorem starts_mono {l p q : List Char} (h : starts l p = true)
    (hq : q.isPrefixOf p = true) : starts l q = true :=
  isPrefixOf_trans q p l hq h

theorem starts_head {l : List Char} {c : Char} {p : List Char}
    (h : starts l (c :: p) = true) : ∃ rest, l = c :: rest := by
  cases l with
  | nil => simp [starts, List.isPrefixOf] at h
  | cons d rest =>
    simp only [starts, List.isPrefixOf, Bool.and_eq_true, beq_iff_eq] at h
    exact ⟨rest, by rw [h.1]⟩

theorem dict_get_update {β : Type} (l : List (List Char × β)) (k : List Char) (f : β → β) :
    dict_get (dict_update l k f) k = (dict_get l k).map f := by
  induction l with
  | nil => simp [dict_get, dict_update]
  | cons p rest ih =>
    by_cases h : (p.1 == k) = true
    · simp [dict_get, dict_update, List.find?, h]
    · simp only [Bool.not_eq_true] at h
      simp only [dict_get, dict_update, List.map_cons, List.find?, h, Bool.false_eq_true,
        if_false] at ih ⊢
      exact ih

theorem dict_get_update_other {β : Type} (l : List (List Char × β)) (k g : List Char)
    (f : β → β) (hgk : g ≠ k) : dict_get (dict_update l k f) g = dict_get l g := by
  induction l with
  | nil => simp [dict_get, dict_update]
  | cons p rest ih =>
    by_cases h : (p.1 == k) = true
    · have hg : (p.1 == g) = false := by
        rw [beq_eq_false_iff_ne]
        rw [beq_iff_eq] at h
        rw [h]
        exact fun hh => hgk hh.symm
      simp only [dict_get, dict_update, List.map_cons, List.find?, h, if_true, hg,
        Bool.false_eq_true, if_false] at ih ⊢
      exact ih
    · simp only [Bool.not_eq_true] at h
      by_cases hg : (p.1 == g) = true
      · simp [dict_get, dict_update, List.find?, h, hg]
      · simp only [Bool.not_eq_true] at hg
        simp only [dict_get, dict_update, List.map_cons, List.find?, h, hg,
          Bool.false_eq_true, if_false] at ih ⊢
        exact ih

theorem dict_get_set {β : Type} (l : List (List Char × β)) (k : List Char) (v : β) :
    dict_get (dict_set l k v) k = some v := by
  unfold dict_set
  by_cases hmem : l.any (fun p => p.1 == k) = true
  · rw [if_pos hmem]
    induction l with
    | nil => simp at hmem
    | cons p rest ih =>
      by_cases h : (p.1 == k) = true
      · simp [dict_get, List.find?, h]
      · simp only [Bool.not_eq_true] at h
        simp only [List.any_cons, h, Bool.false_or] at hmem
        simp only [List.map_cons, dict_get, List.find?, h, Bool.false_eq_true, if_false] at ih ⊢
        exact ih hmem
  · rw [if_neg hmem]
    induction l with
    | nil => simp [dict_get, List.find?]
    | cons p rest ih =>
      simp only [List.any_cons, Bool.or_eq_true, not_or] at hmem
      have h1 : (p.1 == k) = false := by
        cases hh : (p.1 == k)
        · rfl
        · exact absurd hh hmem.1
      simp only [List.cons_append, dict_get, List.find?, h1, Bool.false_eq_true, if_false]
      exact ih (by simp [hmem.2])

theorem dict_get_set_other {β : Type} (l : List (List Char × β)) (k g : List Char) (v : β)
    (hgk : g ≠ k) : dict_get (dict_set l k v) g = dict_get l g := by
  unfold dict_set
  split
  · exact dict_get_update_other l k g (fun _ => v) hgk
  · have hkg : ((k, v).1 == g) = false := by
      rw [beq_eq_false_iff_ne]
      exact fun hh => hgk hh.symm
    rw [dict_get, List.find?_append]
    simp [dict_get, List.find?, hkg]

theorem header_step (s : DiffState) (line : List Char)
    (hh : starts line "+++ b/".toList = true) :
    parse_diff_line s line =
      { s with current_file := some (chars_strip (line.drop 6)),
               file_adds := set_entry s.file_adds (chars_strip (line.drop 6)) ∅ } := by
  unfold parse_diff_line
  rw [if_pos hh]

theorem added_step (s : DiffState) (line : List Char) (f : List Char) (n : ℤ)
    (hplus : starts line "+".toList = true)
    (htriple : starts line "+++".toList = false)
    (hcf : s.current_file = some f) (hnl : s.new_line = some n) :
    parse_diff_line s line =
      { s with file_adds := add_entry s.file_adds f n, new_line := some (n + 1) } := by
  have h1 : starts line "+++ b/".toList = false := by
    cases hh : starts line "+++ b/".toList
    · rfl
    · exact absurd (starts_mono (q := "+++".toList) hh (by decide))
        (by simp only [htriple]; simp)
  have hplus' : starts line ('+' :: []) = true := hplus
  obtain ⟨rest, rfl⟩ := starts_head hplus'
  have h2 : starts ('+' :: rest) "@@".toList = false := by
    cases hh : starts ('+' :: rest) "@@".toList
    · rfl
    · have hh' : starts ('+' :: rest) ('@' :: ['@']) = true := hh
      obtain ⟨r, hr⟩ := starts_head hh'
      simp at hr
  unfold parse_diff_line
  rw [if_neg (by rw [h1]; simp), if_neg (by rw [h2]; simp),
    if_pos (by rw [hplus, htriple, hcf, hnl]; rfl), hcf, hnl]

theorem context_step (s : DiffState) (line : List Char) (n : ℤ)
    (hplus : starts line "+".toList = false)
    (hminus : starts line "-".toList = false)
    (hatat : starts line "@@".toList = false)
    (hnl : s.new_line = some n) :
    parse_diff_line s line = { s with new_line := some (n + 1) } := by
  have h1 : starts line "+++ b/".toList = false := by
    cases hh : starts line "+++ b/".toList
    · rfl
    · exact absurd (starts_mono (q := "+".toList) hh (by decide))
        (by simp only [hplus]; simp)
  have h3 : starts line "+++".toList = false := by
    cases hh : starts line "+++".toList
    · rfl
    · exact absurd (starts_mono (q := "+".toList) hh (by decide))
        (by simp only [hplus]; simp)
  have h4 : starts line "---".toList = false := by
    cases hh : starts line "---".toList
    · rfl
    · exact absurd (starts_mono (q := "-".toList) hh (by decide))
        (by simp only [hminus]; simp)
  unfold parse_diff_line
  rw [if_neg (by rw [h1]; simp), if_neg (by rw [hatat]; simp),
    if_neg (by rw [hplus]; simp),
    if_pos (by rw [hminus, h4, h3, hnl]; rfl), hnl]

theorem removed_step (s : DiffState) (line : List Char)
    (hminus : starts line "-".toList = true) :
    parse_diff_line s line = s := by
  have hminus' : starts line ('-' :: []) = true := hminus
  obtain ⟨rest, rfl⟩ := starts_head hminus'
  have h1 : starts ('-' :: rest) "+++ b/".toList = false := by
    cases hh : starts ('-' :: rest) "+++ b/".toList
    · rfl
    · have hh' : starts ('-' :: rest) ('+' :: "++ b/".toList) = true := hh
      obtain ⟨r, hr⟩ := starts_head hh'
      simp at hr
  have h2 : starts ('-' :: rest) "@@".toList = false := by
    cases hh : starts ('-' :: rest) "@@".toList
    · rfl
    · have hh' : starts ('-' :: rest) ('@' :: ['@']) = true := hh
      obtain ⟨r, hr⟩ := starts_head hh'
      simp at hr
  have h3 : starts ('-' :: rest) "+".toList = false := by
    cases hh : starts ('-' :: rest) "+".toList
    · rfl
    · have hh' : starts ('-' :: rest) ('+' :: []) = true := hh
      obtain ⟨r, hr⟩ := starts_head hh'
      simp at hr
  unfold parse_diff_line
  rw [if_neg (by rw [h1]; simp), if_neg (by rw [h2]; simp),
    if_neg (by rw [h3]; simp), if_neg (by rw [hminus]; simp)]

theorem step_file_adds_cases (s : DiffState) (line : List Char) :
    (parse_diff_line s line).file_adds = s.file_adds ∨
    (starts line "+++ b/".toList = true ∧
      (parse_diff_line s line).file_adds =
        set_entry s.file_adds (chars_strip (line.drop 6)) ∅) ∨
    (∃ f n, s.current_file = some f ∧
      (parse_diff_line s line).file_adds = add_entry s.file_adds f n) := by
  unfold parse_diff_line
  by_cases h1 : starts line "+++ b/".toList = true
  · rw [if_pos h1]
    right; left
    exact ⟨h1, rfl⟩
  · rw [if_neg h1]
    by_cases h2 : starts line "@@".toList = true
    · rw [if_pos h2]
      cases hunk_new_start line with
      | none => left; rfl
      | some m => left; rfl
    · rw [if_neg h2]
      by_cases h3 : (starts line "+".toList && !starts line "+++".toList &&
          s.current_file.isSome && s.new_line.isSome) = true
      · rw [if_pos h3]
        cases hcf : s.current_file with
        | none =>
          left
          cases s.new_line <;> rfl
        | some f =>
          cases hnl : s.new_line with
          | none => left; rfl
          | some n =>
            right; right
            exact ⟨f, n, rfl, rfl⟩
      · rw [if_neg h3]
        by_cases h4 : (!starts line "-".toList && !starts line "---".toList &&
            !starts line "+++".toList && s.new_line.isSome) = true
        · rw [if_pos h4]
          cases s.new_line with
          | none => left; rfl
          | some n => left; rfl
        · rw [if_neg h4]
          left; rfl

theorem lookup_isSome_step (s : DiffState) (line : List Char) (k : List Char)
    (h : (lookup_adds s.file_adds k).isSome = true) :
    (lookup_adds (parse_diff_line s line).file_adds k).isSome = true := by
  rcases step_file_adds_cases s line with hc | ⟨_, hc⟩ | ⟨f, n, _, hc⟩
  · rw [hc]; exact h
  · rw [hc]
    by_cases hk : k = chars_strip (line.drop 6)
    · subst hk
      rw [lookup_adds, set_entry, dict_get_set]
      rfl
    · rw [lookup_adds, set_entry, dict_get_set_other _ _ _ _ hk]
      exact h
  · rw [hc]
    by_cases hk : k = f
    · subst hk
      rw [lookup_adds, add_entry, dict_get_update]
      rw [lookup_adds] at h
      simpa using h
    · rw [lookup_adds, add_entry, dict_get_update_other _ _ _ _ hk]
      exact h

theorem lookup_isSome_fold (ls : List (List Char)) (s : DiffState) (k : List Char)
    (h : (lookup_adds s.file_adds k).isSome = true) :
    (lookup_adds (ls.foldl parse_diff_line s).file_adds k).isSome = true := by
  induction ls generalizing s with
  | nil => exact h
  | cons l rest ih =>
    rw [List.foldl_cons]
    exact ih _ (lookup_isSome_step s l k h)

theorem header_in_fold : ∀ (ls : List (List Char)) (s : DiffState) (line : List Char),
    line ∈ ls → starts line "+++ b/".toList = true →
    (lookup_adds ((ls.foldl parse_diff_line s)).file_adds
      (chars_strip (line.drop 6))).isSome = true
  | [], _, _ => by simp
  | l :: rest, s, line => by
    intro hmem hh
    rw [List.foldl_cons]
    rw [List.mem_cons] at hmem
    rcases hmem with rfl | hmem
    · apply lookup_isSome_fold
      rw [header_step s line hh]
      rw [lookup_adds, set_entry, dict_get_set]
      rfl
    · exact header_in_fold rest _ line hmem hh

/-- C6: the per-line behaviour of `parse_diff`.  (a) An added line (`+`, not a
`+++` header) with the current file and cursor set records the cursor value
into the current file's set and then increments the cursor, leaving other
files untouched; (b) a context line (neither `+` nor `-` nor a header)
increments the cursor without recording; (c) a removed line (`-`, including
`---`) leaves the state — in particular the cursor — unchanged; (d) a
`+++ b/` header line installs the named file with an empty set; (e) hence any
file whose header occurs in the diff appears in the final mapping even if no
added line ever records into it. -/
theorem c6_parse_diff_step_behavior :
    (∀ (s : DiffState) (line : List Char) (f : List Char) (n : ℤ) (t : Finset ℤ),
      starts line "+".toList = true → starts line "+++".toList = false →
      s.current_file = some f → s.new_line = some n →
      lookup_adds s.file_adds f = some t →
      (parse_diff_line s line).new_line = some (n + 1) ∧
      lookup_adds (parse_diff_line s line).file_adds f = some (insert n t) ∧
      ∀ g, g ≠ f →
        lookup_adds (parse_diff_line s line).file_adds g = lookup_adds s.file_adds g) ∧
    (∀ (s : DiffState) (line : List Char) (n : ℤ),
      starts line "+".toList = false → starts line "-".toList = false →
      starts line "@@".toList = false → s.new_line = some n →
      parse_diff_line s line = { s with new_line := some (n + 1) }) ∧
    (∀ (s : DiffState) (line : List Char),
      starts line "-".toList = true → parse_diff_line s line = s) ∧
    (∀ (s : DiffState) (line : List Char),
      starts line "+++ b/".toList = true →
      lookup_adds (parse_diff_line s line).file_adds (chars_strip (line.drop 6)) = some ∅ ∧
      (parse_diff_line s line).current_file = some (chars_strip (line.drop 6))) ∧
    (∀ (diff_lines : List (List Char)) (line : List Char),
      line ∈ diff_lines → starts line "+++ b/".toList = true →
      (lookup_adds (parse_diff diff_lines) (chars_strip (line.drop 6))).isSome = true) := by
  refine ⟨?_, ?_, ?_, ?_, ?_⟩
  · intro s line f n t hplus htriple hcf hnl hlk
    rw [added_step s line f n hplus htriple hcf hnl]
    refine ⟨rfl, ?_, ?_⟩
    · rw [lookup_adds, add_entry, dict_get_update]
      rw [lookup_adds] at hlk
      rw [hlk]
      rfl
    · intro g hg
      rw [lookup_adds, add_entry, dict_get_update_other _ _ _ _ hg, lookup_adds]
  · intro s line n hplus hminus hatat hnl
    exact context_step s line n hplus hminus hatat hnl
  · intro s line hminus
    exact removed_step s line hminus
  · intro s line hh
    rw [header_step s line hh]
    exact ⟨by rw [lookup_adds, set_entry, dict_get_set], rfl⟩
  · intro diff_lines line hmem hh
    exact header_in_fold diff_lines _ line hmem hh

/-- C6 witness: the step behaviour at concrete inputs — an added line
`"+bar();"` in state (file `foo.c`, cursor 41), a context line `" ctx"`, a
removed line `"-old"`, a header line `"+++ b/foo.c"`, and a run of a diff
whose only body is a header, producing the file with an empty set. -/
theorem c6_parse_diff_step_behavior_witness :
    ((parse_diff_line ⟨[("foo.c".toList, ∅)], some "foo.c".toList, some 41⟩
        "+bar();".toList).new_line = some 42 ∧
      lookup_adds (parse_diff_line ⟨[("foo.c".toList, ∅)], some "foo.c".toList, some 41⟩
        "+bar();".toList).file_adds "foo.c".toList = some {41}) ∧
    parse_diff_line ⟨[("foo.c".toList, ∅)], some "foo.c".toList, some 41⟩ " ctx".toList =
      ⟨[("foo.c".toList, ∅)], some "foo.c".toList, some 42⟩ ∧
    parse_diff_line ⟨[("foo.c".toList, ∅)], some "foo.c".toList, some 41⟩ "-old".toList =
      ⟨[("foo.c".toList, ∅)], some "foo.c".toList, some 41⟩ ∧
    lookup_adds (parse_diff_line ⟨[], none, none⟩ "+++ b/foo.c".toList).file_adds
      "foo.c".toList = some ∅ ∧
    (lookup_adds (parse_diff ["+++ b/e.c".toList]) "e.c".toList).isSome = true := by
  have h1 := (c6_parse_diff_step_behavior.1
    ⟨[("foo.c".toList, ∅)], some "foo.c".toList, some 41⟩ "+bar();".toList
    "foo.c".toList 41 ∅ (by decide) (by decide) rfl rfl (by decide))
  have h2 := c6_parse_diff_step_behavior.2.1
    ⟨[("foo.c".toList, ∅)], some "foo.c".toList, some 41⟩ " ctx".toList 41
    (by decide) (by decide) (by decide) rfl
  have h3 := c6_parse_diff_step_behavior.2.2.1
    ⟨[("foo.c".toList, ∅)], some "foo.c".toList, some 41⟩ "-old".toList (by decide)
  have h4 := (c6_parse_diff_step_behavior.2.2.2.1 ⟨[], none, none⟩
    "+++ b/foo.c".toList (by decide)).1
  have h5 := c6_parse_diff_step_behavior.2.2.2.2 ["+++ b/e.c".toList]
    "+++ b/e.c".toList (by simp) (by decide)
  refine ⟨⟨h1.1, ?_⟩, ?_, h3, ?_, ?_⟩
  · rw [h1.2.1]
    decide
  · rw [h2]
    decide
  · have he : chars_strip ((("+++ b/foo.c".toList)).drop 6) = "foo.c".toList := by decide
    rw [he] at h4
    exact h4
  · have he : chars_strip ((("+++ b/e.c".toList)).drop 6) = "e.c".toList := by decide
    rw [he] at h5
    exact h5

theorem step_key_origin (s : DiffState) (line : List Char) (k : List Char)
    (h : (lookup_adds (parse_diff_line s line).file_adds k).isSome = true) :
    (lookup_adds s.file_adds k).isSome = true ∨
      (starts line "+++ b/".toList = true ∧ k = chars_strip (line.drop 6)) := by
  rcases step_file_adds_cases s line with hc | ⟨hh, hc⟩ | ⟨f, n, _, hc⟩
  · rw [hc] at h
    exact Or.inl h
  · by_cases hk : k = chars_strip (line.drop 6)
    · exact Or.inr ⟨hh, hk⟩
    · rw [hc, lookup_adds, set_entry, dict_get_set_other _ _ _ _ hk] at h
      exact Or.inl h
  · by_cases hk : k = f
    · subst hk
      rw [hc, lookup_adds, add_entry, dict_get_update] at h
      left
      rw [lookup_adds]
      simpa using h
    · rw [hc, lookup_adds, add_entry, dict_get_update_other _ _ _ _ hk] at h
      exact Or.inl h

theorem fold_key_origin : ∀ (ls : List (List Char)) (s : DiffState) (k : List Char),
    (lookup_adds ((ls.foldl parse_diff_line s)).file_adds k).isSome = true →
    (lookup_adds s.file_adds k).isSome = true ∨
      ∃ line ∈ ls, starts line "+++ b/".toList = true ∧ k = chars_strip (line.drop 6)
  | [] => by
    intro s k h
    exact Or.inl h
  | l :: rest => by
    intro s k h
    rw [List.foldl_cons] at h
    rcases fold_key_origin rest _ k h with h' | ⟨line, hmem, hh⟩
    · rcases step_key_origin s l k h' with h'' | hh
      · exact Or.inl h''
      · exact Or.inr ⟨l, by simp, hh⟩
    · exact Or.inr ⟨line, by simp [hmem], hh⟩

theorem no_hunk_step (s : DiffState) (line : List Char)
    (hline : starts line "@@".toList = true → hunk_new_start line = none)
    (hnl : s.new_line = none)
    (hvals : ∀ k t, lookup_adds s.file_adds k = some t → t = ∅) :
    (parse_diff_line s line).new_line = none ∧
    (∀ k t, lookup_adds (parse_diff_line s line).file_adds k = some t → t = ∅) := by
  by_cases h1 : starts line "+++ b/".toList = true
  · rw [header_step s line h1]
    refine ⟨hnl, ?_⟩
    intro k t hkt
    by_cases hk : k = chars_strip (line.drop 6)
    · subst hk
      rw [lookup_adds, set_entry, dict_get_set] at hkt
      exact (Option.some_injective _ hkt).symm
    · rw [lookup_adds, set_entry, dict_get_set_other _ _ _ _ hk] at hkt
      exact hvals k t hkt
  · unfold parse_diff_line
    rw [if_neg h1]
    by_cases h2 : starts line "@@".toList = true
    · rw [if_pos h2, hline h2]
      exact ⟨hnl, hvals⟩
    · rw [if_neg h2]
      have h3 : (starts line "+".toList && !starts line "+++".toList &&
          s.current_file.isSome && s.new_line.isSome) = false := by
        rw [hnl]
        simp
      have h4 : (!starts line "-".toList && !starts line "---".toList &&
          !starts line "+++".toList && s.new_line.isSome) = false := by
        rw [hnl]
        simp
      rw [if_neg (by rw [h3]; simp), if_neg (by rw [h4]; simp)]
      exact ⟨hnl, hvals⟩

theorem no_hunk_fold : ∀ (ls : List (List Char)) (s : DiffState),
    (∀ line ∈ ls, starts line "@@".toList = true → hunk_new_start line = none) →
    s.new_line = none → (∀ k t, lookup_adds s.file_adds k = some t → t = ∅) →
    ∀ k t, lookup_adds ((ls.foldl parse_diff_line s)).file_adds k = some t → t = ∅
  | [] => by
    intro s _ _ hvals
    exact hvals
  | l :: rest => by
    intro s hls hnl hvals
    rw [List.foldl_cons]
    obtain ⟨hnl', hvals'⟩ := no_hunk_step s l (hls l (by simp)) hnl hvals
    exact no_hunk_fold rest _ (fun line hm => hls line (by simp [hm])) hnl' hvals'

theorem no_header_step (s : DiffState) (line : List Char)
    (hline : starts line "+++ b/".toList = false)
    (hfa : s.file_adds = []) (hcf : s.current_file = none) :
    (parse_diff_line s line).file_adds = [] ∧
    (parse_diff_line s line).current_file = none := by
  unfold parse_diff_line
  rw [if_neg (by rw [hline]; simp)]
  by_cases h2 : starts line "@@".toList = true
  · rw [if_pos h2]
    cases hunk_new_start line with
    | none => exact ⟨hfa, hcf⟩
    | some m => exact ⟨hfa, hcf⟩
  · rw [if_neg h2]
    have h3 : (starts line "+".toList && !starts line "+++".toList &&
        s.current_file.isSome && s.new_line.isSome) = false := by
      rw [hcf]
      simp
    rw [if_neg (by rw [h3]; simp)]
    by_cases h4 : (!starts line "-".toList && !starts line "---".toList &&
        !starts line "+++".toList && s.new_line.isSome) = true
    · rw [if_pos h4]
      cases s.new_line with
      | none => exact ⟨hfa, hcf⟩
      | some n => exact ⟨hfa, hcf⟩
    · rw [if_neg h4]
      exact ⟨hfa, hcf⟩

theorem header_free_fold : ∀ (ls : List (List Char)) (s : DiffState),
    (∀ line ∈ ls, starts line "+++ b/".toList = false) →
    s.file_adds = [] → s.current_file = none →
    ((ls.foldl parse_diff_line s)).file_adds = [] ∧
      ((ls.foldl parse_diff_line s)).current_file = none
  | [] => by
    intro s _ hfa hcf
    exact ⟨hfa, hcf⟩
  | l :: rest => by
    intro s hls hfa hcf
    rw [List.foldl_cons]
    obtain ⟨hfa', hcf'⟩ := no_header_step s l (hls l (by simp)) hfa hcf
    exact header_free_fold rest _ (fun line hm => hls line (by simp [hm])) hfa' hcf'

theorem step_no_record (s : DiffState) (line : List Char)
    (hh : starts line "+++ b/".toList = false)
    (hnone : s.current_file = none ∨ s.new_line = none) :
    (parse_diff_line s line).file_adds = s.file_adds := by
  unfold parse_diff_line
  rw [if_neg (by rw [hh]; simp)]
  by_cases h2 : starts line "@@".toList = true
  · rw [if_pos h2]
    cases hunk_new_start line with
    | none => rfl
    | some m => rfl
  · rw [if_neg h2]
    have h3 : (starts line "+".toList && !starts line "+++".toList &&
        s.current_file.isSome && s.new_line.isSome) = false := by
      rcases hnone with hn | hn <;> rw [hn] <;> simp
    rw [if_neg (by rw [h3]; simp)]
    by_cases h4 : (!starts line "-".toList && !starts line "---".toList &&
        !starts line "+++".toList && s.new_line.isSome) = true
    · rw [if_pos h4]
      cases s.new_line with
      | none => rfl
      | some n => rfl
    · rw [if_neg h4]

theorem new_line_none_step (s : DiffState) (line : List Char)
    (hline : starts line "@@".toList = true → hunk_new_start line = none)
    (hnl : s.new_line = none) :
    (parse_diff_line s line).new_line = none := by
  by_cases h1 : starts line "+++ b/".toList = true
  · rw [header_step s line h1]
    exact hnl
  · unfold parse_diff_line
    rw [if_neg h1]
    by_cases h2 : starts line "@@".toList = true
    · rw [if_pos h2, hline h2]
      exact hnl
    · rw [if_neg h2]
      have h3 : (starts line "+".toList && !starts line "+++".toList &&
          s.current_file.isSome && s.new_line.isSome) = false := by
        rw [hnl]
        simp
      have h4 : (!starts line "-".toList && !starts line "---".toList &&
          !starts line "+++".toList && s.new_line.isSome) = false := by
        rw [hnl]
        simp
      rw [if_neg (by rw [h3]; simp), if_neg (by rw [h4]; simp)]
      exact hnl

theorem new_line_none_fold : ∀ (ls : List (List Char)) (s : DiffState),
    (∀ line ∈ ls, starts line "@@".toList = true → hunk_new_start line = none) →
    s.new_line = none → ((ls.foldl parse_diff_line s)).new_line = none
  | [] => by
    intro s _ hnl
    exact hnl
  | l :: rest => by
    intro s hls hnl
    rw [List.foldl_cons]
    exact new_line_none_fold rest _ (fun line hm => hls line (by simp [hm]))
      (new_line_none_step s l (hls l (by simp)) hnl)

theorem not_header_of_not_triple {line : List Char}
    (h : starts line "+++".toList = false) : starts line "+++ b/".toList = false := by
  cases hh : starts line "+++ b/".toList
  · rfl
  · exact absurd (starts_mono (q := "+++".toList) hh (by decide))
      (by simp only [h]; simp)

/-- C10: `parse_diff` is total by construction (it is a fold of a total step
function, so it returns a mapping for every input line list, malformed or
not), and on EVERY input, however malformed or mixed, an added line is never
recorded while no `+++ b/` header has been seen or while no `@@` hunk header
has set the line cursor: (1) every key of the result comes from a `+++ b/`
header occurring in the input; (2) after an arbitrary prefix containing no
`+++ b/` header, processing an added line leaves the mapping unchanged;
(3) after an arbitrary prefix in which no `@@` line parses as a hunk header,
processing an added line leaves the mapping unchanged; consequently (4) a
diff with no parsing hunk header maps every file to the empty set, and (5) a
diff with no file header produces the empty mapping. -/
theorem c10_parse_diff_safety :
    (∀ (diff_lines : List (List Char)) (k : List Char),
      (lookup_adds (parse_diff diff_lines) k).isSome = true →
      ∃ line ∈ diff_lines, starts line "+++ b/".toList = true ∧
        k = chars_strip (line.drop 6)) ∧
    (∀ (pre : List (List Char)) (line : List Char),
      (∀ l ∈ pre, starts l "+++ b/".toList = false) →
      starts line "+".toList = true → starts line "+++".toList = false →
      (parse_diff_line (pre.foldl parse_diff_line ⟨[], none, none⟩) line).file_adds =
        (pre.foldl parse_diff_line ⟨[], none, none⟩).file_adds) ∧
    (∀ (pre : List (List Char)) (line : List Char),
      (∀ l ∈ pre, starts l "@@".toList = true → hunk_new_start l = none) →
      starts line "+".toList = true → starts line "+++".toList = false →
      (parse_diff_line (pre.foldl parse_diff_line ⟨[], none, none⟩) line).file_adds =
        (pre.foldl parse_diff_line ⟨[], none, none⟩).file_adds) ∧
    (∀ (diff_lines : List (List Char)),
      (∀ line ∈ diff_lines, starts line "@@".toList = true → hunk_new_start line = none) →
      ∀ k t, lookup_adds (parse_diff diff_lines) k = some t → t = ∅) ∧
    (∀ (diff_lines : List (List Char)),
      (∀ line ∈ diff_lines, starts line "+++ b/".toList = false) →
      parse_diff diff_lines = []) := by
  refine ⟨?_, ?_, ?_, ?_, ?_⟩
  · intro diff_lines k h
    rcases fold_key_origin diff_lines ⟨[], none, none⟩ k h with h' | h'
    · simp [lookup_adds, dict_get] at h'
    · exact h'
  · intro pre line hpre _ htriple
    exact step_no_record _ line (not_header_of_not_triple htriple)
      (Or.inl (header_free_fold pre ⟨[], none, none⟩ hpre rfl rfl).2)
  · intro pre line hpre _ htriple
    exact step_no_record _ line (not_header_of_not_triple htriple)
      (Or.inr (new_line_none_fold pre ⟨[], none, none⟩ hpre rfl))
  · intro diff_lines hls k t h
    exact no_hunk_fold diff_lines ⟨[], none, none⟩ hls rfl
      (by intro k' t' h'; simp [lookup_adds, dict_get] at h') k t h
  · intro diff_lines hls
    exact (header_free_fold diff_lines ⟨[], none, none⟩ hls rfl rfl).1

/-- C10 witness: the safety theorem applied to concrete diffs — a one-header
diff (key origin); the added line `+early` after the header-free prefix
`["--- a/a.c"]` recording nothing; the added line `+stray` after the
hunk-header-free prefix `["+++ b/a.c"]` recording nothing; a diff with a
header but no hunk header (its file's set forced empty); a diff with added
lines but no file header (empty result); and, end to end, a mixed diff whose
stray `+early` line before the first header is absent from the result while
the `+x` line after the hunk header is recorded. -/
theorem c10_parse_diff_safety_witness :
    (∃ line ∈ ["+++ b/a.c".toList], starts line "+++ b/".toList = true ∧
      "a.c".toList = chars_strip (line.drop 6)) ∧
    (parse_diff_line (["--- a/a.c".toList].foldl parse_diff_line ⟨[], none, none⟩)
        "+early".toList).file_adds =
      (["--- a/a.c".toList].foldl parse_diff_line ⟨[], none, none⟩).file_adds ∧
    (parse_diff_line (["+++ b/a.c".toList].foldl parse_diff_line ⟨[], none, none⟩)
        "+stray".toList).file_adds =
      (["+++ b/a.c".toList].foldl parse_diff_line ⟨[], none, none⟩).file_adds ∧
    (∅ : Finset ℤ) = ∅ ∧
    parse_diff ["+x".toList, "@@ -1 +1 @@".toList, "+y".toList] = [] ∧
    parse_diff ["+early".toList, "+++ b/a.c".toList, "@@ -1 +1 @@".toList, "+x".toList] =
      [("a.c".toList, {0})] :=
  ⟨c10_parse_diff_safety.1 ["+++ b/a.c".toList] "a.c".toList (by decide),
   c10_parse_diff_safety.2.1 ["--- a/a.c".toList] "+early".toList
     (by decide) (by decide) (by decide),
   c10_parse_diff_safety.2.2.1 ["+++ b/a.c".toList] "+stray".toList
     (by decide) (by decide) (by decide),
   c10_parse_diff_safety.2.2.2.1 ["+zap".toList, "+++ b/a.c".toList] (by decide)
     "a.c".toList ∅ (by decide),
   c10_parse_diff_safety.2.2.2.2 ["+x".toList, "@@ -1 +1 @@".toList, "+y".toList] (by decide),
   by decide⟩

/-! ## Theorems: definition collection (claim C1) -/

theorem dict_get_append_of_none {β : Type} (l : List (List Char × β)) (k : List Char) (v : β)
    (h : dict_get l k = none) : dict_get (l ++ [(k, v)]) k = some v := by
  rw [dict_get, List.find?_append]
  rw [dict_get, Option.map_eq_none'] at h
  rw [h]
  simp [List.find?]

theorem parent_of_ne (s : String) : s ≠ "parent_of_" ++ s := by
  intro h
  have hl := congrArg String.length h
  rw [String.length_append] at hl
  have : ("parent_of_" : String).length = 10 := rfl
  omega

/-- C1: in the recording loop of `_process_file_identifiers`, when the
identifier is fresh, its definition resolves to a location whose file exists
and is readable, the document-symbol match yields the definition's line span,
the location is unseen, and `_find_symbol_and_parent` finds the symbol with a
parent carrying a range, then the parent's range is recorded for the defining
file under the synthetic label `parent_of_<identifier>` INSTEAD OF the
identifier's own range: the defining file's entry (fresh here) holds exactly
the parent tuple and not the identifier's own tuple. -/
theorem c1_parent_range_recorded
    (symbols : List SymbolNode) (identifier : String) (env : ResolveEnv)
    (st : CollectState) (loc : Loc) (lrest : List Loc)
    (ds de ps pe : ℤ) (node parent : SymbolNode) (contents : List Char)
    (h1 : identifier ∉ st.printed_defs)
    (h2 : env.def_result = loc :: lrest)
    (h3 : env.file_exists = true)
    (h4 : env.header_contents = some contents)
    (h5 : contents.isEmpty = false)
    (h6 : env.def_symbol = some (ds, de))
    (h7 : (replace_seq "file://".toList [] loc.uri, ds, de) ∉ st.printed_locations)
    (h8 : symbols.isEmpty = false)
    (h9 : find_symbol_and_parent symbols identifier ds = some (node, some parent))
    (h10 : parent.range = some (ps, pe))
    (h11 : lookup_defs st.collected_defs (replace_seq "file://".toList [] loc.uri) = none) :
    lookup_defs (process_identifier symbols identifier env st).collected_defs
        (replace_seq "file://".toList [] loc.uri) =
      some [(ps, pe, "parent_of_" ++ identifier)] ∧
    (ds, de, identifier) ∉ [(ps, pe, "parent_of_" ++ identifier)] := by
  constructor
  · unfold process_identifier
    rw [if_neg h1, h2]
    simp only [h3, h4, h5, h6, h8, h9, h10, Bool.true_eq_false, if_false,
      Bool.false_eq_true, if_neg h7]
    unfold collect_definition
    rw [lookup_defs]
    simp only [h11, Option.isSome_none, Bool.false_eq_true, if_false]
    have h11' : dict_get st.collected_defs (replace_seq "file://".toList [] loc.uri) =
      none := h11
    rw [append_def, dict_get_update, dict_get_append_of_none _ _ _ h11']
    rfl
  · intro hm
    rw [List.mem_singleton] at hm
    have : identifier = "parent_of_" ++ identifier := congrArg (fun q => q.2.2) hm
    exact parent_of_ne identifier this

/-- C1 witness: the scenario of the claim — `bar()` defined in `bar.c` at
lines 10-20 inside enclosing function `baz` at lines 5-30; the collected entry
for the defining file `/bar.c` is `(5, 30, "parent_of_bar")` and not
`(10, 20, "bar")`. -/
theorem c1_parent_range_recorded_witness :
    lookup_defs (process_identifier
        [SymbolNode.mk "baz" (some (5, 30)) [SymbolNode.mk "bar" (some (10, 20)) []]]
        "bar"
        ⟨[⟨"file:///bar.c".toList, (10, 0), (20, 1)⟩], true, some "int bar;".toList,
          some (10, 20)⟩
        ⟨[], ∅, ∅⟩).collected_defs "/bar.c".toList =
      some [(5, 30, "parent_of_bar")] ∧
    (10, 20, "bar") ∉ [((5 : ℤ), (30 : ℤ), "parent_of_bar")] := by
  have he : replace_seq "file://".toList []
      ("file:///bar.c".toList) = "/bar.c".toList := by decide
  have h := c1_parent_range_recorded
    [SymbolNode.mk "baz" (some (5, 30)) [SymbolNode.mk "bar" (some (10, 20)) []]]
    "bar"
    ⟨[⟨"file:///bar.c".toList, (10, 0), (20, 1)⟩], true, some "int bar;".toList,
      some (10, 20)⟩
    ⟨[], ∅, ∅⟩
    ⟨"file:///bar.c".toList, (10, 0), (20, 1)⟩ [] 10 20 5 30
    (SymbolNode.mk "bar" (some (10, 20)) []) (SymbolNode.mk "baz" (some (5, 30))
      [SymbolNode.mk "bar" (some (10, 20)) []])
    "int bar;".toList
    (by simp) rfl rfl rfl (by decide) rfl
    (by rw [he]; simp) (by decide)
    (by simp [find_symbol_and_parent, find_helper, node_matches,
      SymbolNode.name, SymbolNode.range])
    rfl (by rw [he]; simp [lookup_defs, dict_get])
  rw [he] at h
  have hb : ("parent_of_" ++ "bar" : String) = "parent_of_bar" := rfl
  rw [hb] at h
  exact h

/-! ## Theorems: pass-level cleanup (claim C2) -/

/-- C2 counterexample: when the file-processing loop of `_collect_definitions`
raises on its (only) file, the propagating exception skips line 897 and
`proc.terminate()` is never invoked (second component `false`), refuting the
claim that termination happens on the exception path too. -/
theorem c2_terminate_skipped_counterexample :
    collect_definitions_run [FileOutcome.raises "boom"] =
      (Except.error "boom", false) := rfl

/-- C2 amended: `_collect_definitions` invokes `proc.terminate()` when every
file processes successfully, but when an individual file-processing step
raises, the exception propagates out of the function WITHOUT terminate being
invoked — the function has no `try/finally`, so the analysis-server process
leaks on the failure path. -/
theorem c2_terminate_only_on_success (outcomes : List FileOutcome) :
    (run_files outcomes = Except.ok () →
      collect_definitions_run outcomes = (Except.ok (), true)) ∧
    ∀ e, run_files outcomes = Except.error e →
      collect_definitions_run outcomes = (Except.error e, false) := by
  constructor
  · intro h
    unfold collect_definitions_run
    rw [h]
  · intro e h
    unfold collect_definitions_run
    rw [h]

/-- C2 witness: the amended theorem at a two-file pass that succeeds and at a
pass whose second file raises. -/
theorem c2_terminate_only_on_success_witness :
    collect_definitions_run [FileOutcome.ok, FileOutcome.ok] = (Except.ok (), true) ∧
    collect_definitions_run [FileOutcome.ok, FileOutcome.raises "io error"] =
      (Except.error "io error", false) :=
  ⟨(c2_terminate_only_on_success [FileOutcome.ok, FileOutcome.ok]).1 rfl,
   (c2_terminate_only_on_success [FileOutcome.ok, FileOutcome.raises "io error"]).2
     "io error" rfl⟩

/-! ## Theorems: frame decoding (claim C3) -/

theorem isPrefixOf_append_right : ∀ (p l s : List Char),
    p.isPrefixOf l = true → p.isPrefixOf (l ++ s) = true
  | [], _, _ => by simp [List.isPrefixOf]
  | a :: p, [], s => by simp [List.isPrefixOf]
  | a :: p, b :: l, s => by
    simp only [List.cons_append, List.isPrefixOf, Bool.and_eq_true, beq_iff_eq]
    rintro ⟨rfl, h⟩
    exact ⟨rfl, isPrefixOf_append_right p l s h⟩

theorem contains_seq_append_right : ∀ (pat l s : List Char),
    contains_seq pat l = true → contains_seq pat (l ++ s) = true
  | pat, [], s => by
    intro h
    simp only [contains_seq, List.isEmpty_iff] at h
    subst h
    cases s with
    | nil => rfl
    | cons c rest => simp [contains_seq, List.isPrefixOf]
  | pat, c :: l, s => by
    intro h
    simp only [contains_seq, Bool.or_eq_true] at h ⊢
    rcases h with h | h
    · left
      have := isPrefixOf_append_right pat (c :: l) s h
      simpa using this
    · right
      exact contains_seq_append_right pat l s h

/-- C3 (code bug): when the byte stream ends before a complete `\r\n\r\n`
header terminator has been read, the header loop of `_read_lsp_response`
never raises and never returns — at end of stream every `read(1)` yields the
empty chunk `b""` (not `None`, which is all the code checks for), so the loop
spins forever re-reading nothing.  Formally: for every iteration budget the
loop is still `.running`, both in general whenever the terminator occurs
nowhere in the remaining input, and concretely on the truncated frame
`b"Content-Length: 10\r\n"` followed by end of stream. -/
theorem c3_truncated_header_loops :
    (∀ (fuel : ℕ) (headers stream : List Char),
      contains_seq crlfcrlf (headers ++ stream) = false →
      read_headers_loop fuel headers stream = ReadOutcome.running) ∧
    ∀ fuel : ℕ,
      read_headers_loop fuel [] "Content-Length: 10\r\n".toList = ReadOutcome.running := by
  have main : ∀ (fuel : ℕ) (headers stream : List Char),
      contains_seq crlfcrlf (headers ++ stream) = false →
      read_headers_loop fuel headers stream = ReadOutcome.running := by
    intro fuel
    induction fuel with
    | zero =>
      intro headers stream _
      rfl
    | succ fuel ih =>
      intro headers stream h
      have hh : contains_seq crlfcrlf headers = false := by
        cases hc : contains_seq crlfcrlf headers
        · rfl
        · rw [contains_seq_append_right crlfcrlf headers stream hc] at h
          exact absurd h (by simp)
      rw [read_headers_loop]
      rw [if_neg (by rw [hh]; simp)]
      cases stream with
      | nil =>
        have := ih headers [] (by simpa using h)
        simpa [read1] using this
      | cons c rest =>
        have := ih (headers ++ [c]) rest (by
          rw [List.append_assoc]
          simpa using h)
        simpa [read1] using this
  exact ⟨main, fun fuel => main fuel [] _ (by decide)⟩

/-- C3 witness: the divergence theorem applied at iteration budget 1000 on the
concrete truncated stream. -/
theorem c3_truncated_header_loops_witness :
    read_headers_loop 1000 [] "Content-Length: 10\r\n".toList = ReadOutcome.running :=
  c3_truncated_header_loops.1 1000 [] ("Content-Length: 10\r\n".toList) (by decide)

/-! ## Theorems: IndexWaiter (claim C5) -/

theorem process_msg_default (st : WaitState) (m : ProgressMsg)
    (h : st.current_interval ≤ 10) :
    process_msg default_params st m = Except.error WaitResult.completed ∨
    ∃ st', process_msg default_params st m = Except.ok st' ∧ st'.current_interval ≤ 10 := by
  unfold process_msg
  by_cases h1 : m.method = "$/progress"
  · rw [if_pos h1]
    by_cases h2 : m.token = "backgroundIndexProgress"
    · rw [if_pos h2]
      cases hp : percentage_of m with
      | none => exact Or.inr ⟨st, rfl, h⟩
      | some pc =>
        dsimp only
        by_cases h3 : pc = 100
        · rw [if_pos h3]
          exact Or.inl rfl
        · rw [if_neg h3]
          by_cases h4 : st.last_percentage = some pc ∧ st.last_value = some m.value
          · rw [if_pos h4]
            have h5 : ¬(default_params.max_stale_time ≤ st.current_interval) := by
              show ¬((60 : ℤ) ≤ st.current_interval)
              omega
            rw [if_neg h5]
            exact Or.inr ⟨_, rfl, h⟩
          · rw [if_neg h4]
            refine Or.inr ⟨_, rfl, ?_⟩
            show default_params.interval ≤ 10
            norm_num [default_params]
    · rw [if_neg h2]
      exact Or.inr ⟨st, rfl, h⟩
  · rw [if_neg h1]
    exact Or.inr ⟨st, rfl, h⟩

theorem process_batch_default : ∀ (ms : List ProgressMsg) (st : WaitState),
    st.current_interval ≤ 10 →
    process_batch default_params st ms = Except.error WaitResult.completed ∨
    ∃ st', process_batch default_params st ms = Except.ok st' ∧ st'.current_interval ≤ 10
  | [], st => fun h => Or.inr ⟨st, rfl, h⟩
  | m :: ms, st => fun h => by
    rw [process_batch]
    rcases process_msg_default st m h with he | ⟨st', hok, hci⟩
    · rw [he]
      exact Or.inl rfl
    · rw [hok]
      exact process_batch_default ms st' hci

theorem wait_loop_never_stale : ∀ (script : List (List ProgressMsg)) (st : WaitState),
    st.current_interval ≤ 10 →
    (wait_loop default_params st script).took_stale_exit = false
  | [], st => fun _ => rfl
  | batch :: rest, st => fun h => by
    rw [wait_loop]
    by_cases hc : default_params.max_total_wait ≤ st.clock
    · rw [if_pos hc]
      rfl
    · rw [if_neg hc]
      rcases process_batch_default batch st h with he | ⟨st', hok, hci⟩
      · rw [he]
        rfl
      · rw [hok]
        dsimp only
        by_cases hb : batch.isEmpty = true
        · rw [if_pos hb]
          refine wait_loop_never_stale rest _ ?_
          show min (st'.current_interval * 2) default_params.max_interval ≤ 10
          have hmi : default_params.max_interval = 10 := rfl
          rw [hmi]
          exact min_le_right _ _
        · rw [if_neg hb]
          exact wait_loop_never_stale rest st' hci

/-- C5 (code bug): the stale-progress exit of `wait_for_clangd_indexing` can
never fire under the default configuration (`max_stale_time = 60`,
`interval = 1`, `max_interval = 10`): line 815 compares `current_interval` —
which stays at most `max_interval = 10` — against `max_stale_time`, and the
accumulated `waited` duration is never consulted.  So (1) no frame script
whatsoever makes the default-parameter run take the stale exit, and (2) on a
stream of 70 identical `backgroundIndexProgress` frames at percentage 10 the
waiter accumulates `waited = 69 > 60` yet runs to the end of the stream
instead of returning at the stale ceiling as the claim (and the function's
own docstring) says. -/
theorem c5_stale_exit_unreachable :
    (∀ script : List (List ProgressMsg),
      (wait_for_clangd_indexing default_params script).took_stale_exit = false) ∧
    wait_for_clangd_indexing default_params [List.replicate 70 msg10] =
      WaitResult.script_ended ⟨some 10, some [("percentage", 10)], 69, 1, 0⟩ := by
  constructor
  · intro script
    refine wait_loop_never_stale script (init_wait_state default_params) ?_
    show default_params.interval ≤ 10
    norm_num [default_params]
  · decide

/-! ## Theorems: symbol-tree search (claim C4) -/

theorem find_helper_eq_preorder (identifier : String) (line : ℤ) :
    ∀ (nodes : List SymbolNode) (parent : Option SymbolNode),
    find_helper identifier line nodes parent =
      (preorder_with_parent nodes parent).find? (fun p => node_matches identifier line p.1)
  | [], _ => by simp [find_helper, preorder_with_parent]
  | SymbolNode.mk nm rng ch :: rest, parent => by
    rw [find_helper, preorder_with_parent]
    rw [List.find?]
    by_cases h : node_matches identifier line (.mk nm rng ch)
    · simp [h]
    · simp only [h, if_neg]
      rw [List.find?_append]
      rw [find_helper_eq_preorder identifier line ch (some (.mk nm rng ch))]
      rw [find_helper_eq_preorder identifier line rest parent]
      simp [h]
      cases (preorder_with_parent ch (some (SymbolNode.mk nm rng ch))).find?
          (fun p => node_matches identifier line p.1) <;> simp

/-- C4 counterexample: for the symbol tree consisting of a node named `bar`
with range 0-100 whose child is also named `bar` with range 10-20, and target
line 15, `_find_symbol_and_parent` returns the OUTER (ancestor) node even
though its descendant also has a matching name and a containing range — it is
not the deepest match. -/
theorem c4_deepest_counterexample :
    find_symbol_and_parent [outerBar] "bar" 15 = some (outerBar, none) ∧
    outerBar.children = [innerBar] ∧
    node_matches "bar" 15 innerBar = true ∧
    outerBar.range = some (0, 100) ∧ innerBar.range = some (10, 20) := by
  refine ⟨?_, by simp [outerBar, SymbolNode.children], by decide, by decide, by decide⟩
  simp [find_symbol_and_parent, find_helper, outerBar, innerBar, node_matches,
    SymbolNode.name, SymbolNode.range]

/-- C4 amended: for every symbol tree, identifier and target line,
`_find_symbol_and_parent` returns the FIRST node in pre-order traversal
(a node before its children, children before later siblings) whose name equals
the identifier and whose range contains the line, together with that node's
parent — so when an ancestor and a descendant both match, the ancestor is
returned, not the deepest node. -/
theorem c4_preorder_first_match (symbols : List SymbolNode) (identifier : String) (line : ℤ) :
    find_symbol_and_parent symbols identifier line =
      (preorder_with_parent symbols none).find? (fun p => node_matches identifier line p.1) :=
  find_helper_eq_preorder identifier line symbols none

end PatchWise
